import Mathlib

/-!
# Verification of `rounding.py`

A shallow embedding over `ℚ` of the two functions of the repository:

* `round_consistently(values, min_sig_digits=2, return_least_sig=False)` —
  rounds a sequence of values to a common decimal place chosen from the
  minimum base-ten exponent of the inputs;
* `center_and_range_latex(c, l, h, min_sig_digits=2)` — formats a central
  value with asymmetric error bars as `c^{+u}_{-d}`.

Numeric values are modelled as exact rationals.  The fallible operations of
the Python code (`int(np.floor(np.log10(np.abs(v))))`, which raises on a zero
element, and `np.min`, which raises on an empty sequence) are modelled with
`Except`.
-/

namespace Rounding

/-- The ways the Python code can raise: `logOfZero` models the
`OverflowError` from `int(np.floor(np.log10(0)))` (log of zero is `-inf`),
`emptyInput` models the `ValueError` from `np.min([])`, and
`unpackMismatch` models a failed tuple unpacking (never reached). -/
inductive RoundingError where
  | logOfZero : RoundingError
  | emptyInput : RoundingError
  | unpackMismatch : RoundingError
deriving DecidableEq

/-- Embeds `int(np.floor(np.log10(np.abs(v))))` (line 42 of `rounding.py`)
for a non-zero `v`: the unique `e` with `10^e ≤ |v| < 10^(e+1)`.
`Int.log 10 |v|` is exactly `⌊log₁₀ |v|⌋` for `v ≠ 0`. -/
def floorLog10 (v : ℚ) : ℤ := Int.log 10 |v|

/-- Round-half-to-even to the nearest integer, the semantics of Python's
built-in `round` on the (exactly represented) value. -/
def roundHalfEven (x : ℚ) : ℤ :=
  if x - ⌊x⌋ < 1/2 then ⌊x⌋
  else if 1/2 < x - ⌊x⌋ then ⌊x⌋ + 1
  else if 2 ∣ ⌊x⌋ then ⌊x⌋ else ⌊x⌋ + 1

/-- Embeds Python's `round(v, ndigits)` (also with negative `ndigits`):
round-half-to-even at the decimal place `10^(-ndigits)`. -/
def pyRound (v : ℚ) (ndigits : ℤ) : ℚ :=
  (roundHalfEven (v * 10 ^ ndigits) : ℚ) / 10 ^ ndigits

/-- Embeds the body of `round_consistently` (lines 42-49 of `rounding.py`):
`most_sig_pow_10 = [int(np.floor(np.log10(np.abs(v)))) for v in values]`
(raising if some `v` is zero), `round_digit = np.min(most_sig_pow_10) -
min_sig_digits + 1` (raising if `values` is empty), and
`rounded_values = [round(v, -round_digit) for v in values]`.
Returns the rounded values together with `round_digit`. -/
def round_consistently_core (values : List ℚ) (min_sig_digits : ℤ) :
    Except RoundingError (List ℚ × ℤ) :=
  if values.any fun v => decide (v = 0) then .error .logOfZero
  else
    match (values.map floorLog10).min? with
    | none => .error .emptyInput
    | some min_exp =>
      let round_digit := min_exp - min_sig_digits + 1
      let rounded_values := values.map fun v => pyRound v (-round_digit)
      .ok (rounded_values, round_digit)

/-- Embeds `round_consistently(values, min_sig_digits, return_least_sig)`:
the `return_least_sig` flag selects between returning `rounded_values`
alone (`Sum.inl`) and the pair `(rounded_values, round_digit)`
(`Sum.inr`). -/
def round_consistently (values : List ℚ) (min_sig_digits : ℤ)
    (return_least_sig : Bool) : Except RoundingError (List ℚ ⊕ List ℚ × ℤ) :=
  (round_consistently_core values min_sig_digits).map fun p =>
    if return_least_sig then .inr p else .inl p.1

/-- Left-pads a digit string with `'0'` up to length `n`. -/
def padZeros (s : String) (n : ℕ) : String :=
  String.mk (List.replicate (n - s.length) '0') ++ s

/-- Embeds Python's fixed-point formatting `'{:.nf}'.format(q)` of an
exactly-represented value: round-half-to-even at `nf` fractional digits,
then print in fixed-point notation with exactly `nf` fractional digits
(none, and no decimal point, when `nf = 0`).  The sign is taken from the
input value, as Python takes it from the sign of the float. -/
def formatFixed (q : ℚ) (nf : ℕ) : String :=
  let m : ℤ := roundHalfEven (q * 10 ^ nf)
  let sign : String := if q < 0 then "-" else ""
  let a : ℕ := m.natAbs
  if nf = 0 then sign ++ toString a
  else sign ++ toString (a / 10 ^ nf) ++ "." ++ padZeros (toString (a % 10 ^ nf)) nf

/-- Embeds `center_and_range_latex(c, l, h, min_sig_digits)` (lines 81-92 of
`rounding.py`): compute `upper = h - c`, `lower = c - l`, round the triple
`[c, upper, lower]` consistently obtaining the shared `round_digit` `n`,
print `abs(n)` fractional digits when `n < 0` and `0` otherwise, and return
`'{c}^{+{upper}}_{-{lower}}'` with every field in fixed-point notation. -/
def center_and_range_latex (c l h : ℚ) (min_sig_digits : ℤ) :
    Except RoundingError String :=
  let upper := h - c
  let lower := c - l
  match round_consistently [c, upper, lower] min_sig_digits true with
  | .error e => .error e
  | .ok (.inl _) => .error .unpackMismatch
  | .ok (.inr (rounded, n)) =>
    match rounded with
    | [c2, l2, h2] =>
      let nf : ℕ := if n < 0 then n.natAbs else 0
      .ok (formatFixed c2 nf ++ "^\x7b+" ++ formatFixed l2 nf ++
        "\x7d_\x7b-" ++ formatFixed h2 nf ++ "\x7d")
    | _ => .error .unpackMismatch

/-- The number of significant digits carried by a non-zero value `r` that is
rounded at the decimal place `10^round_digit`: the digits from its leading
decimal position `floorLog10 r` down to `round_digit`, inclusive. -/
def sigDigitsAt (r : ℚ) (round_digit : ℤ) : ℤ :=
  floorLog10 r - round_digit + 1

/-! ## Helper lemmas about `floorLog10` -/

theorem floorLog10_spec {v : ℚ} (hv : v ≠ 0) :
    (10 : ℚ) ^ floorLog10 v ≤ |v| ∧ |v| < 10 ^ (floorLog10 v + 1) := by
  have h0 : (0 : ℚ) < |v| := abs_pos.mpr hv
  exact ⟨Int.zpow_log_le_self (by norm_num) h0,
    Int.lt_zpow_succ_log_self (by norm_num) _⟩

theorem floorLog10_eq_iff {v : ℚ} {e : ℤ} (hv : v ≠ 0) :
    floorLog10 v = e ↔ (10 : ℚ) ^ e ≤ |v| ∧ |v| < 10 ^ (e + 1) := by
  have h0 : (0 : ℚ) < |v| := abs_pos.mpr hv
  constructor
  · rintro rfl
    exact floorLog10_spec hv
  · rintro ⟨h1, h2⟩
    have ha : e ≤ Int.log 10 |v| :=
      (Int.zpow_le_iff_le_log (by norm_num) h0).mp h1
    have hb : Int.log 10 |v| < e + 1 :=
      (Int.lt_zpow_iff_log_lt (by norm_num) h0).mp h2
    unfold floorLog10
    omega

theorem floorLog10_mono {v w : ℚ} (hv : v ≠ 0) (hvw : |v| ≤ |w|) :
    floorLog10 v ≤ floorLog10 w :=
  Int.log_mono_right (abs_pos.mpr hv) hvw

theorem le_floorLog10_of_le {r : ℚ} {e : ℤ} (hr : r ≠ 0)
    (h : (10 : ℚ) ^ e ≤ |r|) : e ≤ floorLog10 r :=
  (Int.zpow_le_iff_le_log (by norm_num) (abs_pos.mpr hr)).mp h

theorem floorLog10_of_pos {v : ℚ} (e : ℤ) (h0 : 0 < v)
    (h1 : (10 : ℚ) ^ e ≤ v) (h2 : v < 10 ^ (e + 1)) : floorLog10 v = e := by
  apply (floorLog10_eq_iff (ne_of_gt h0)).mpr
  rw [abs_of_pos h0]
  exact ⟨h1, h2⟩

theorem floorLog10_of_neg {v : ℚ} (e : ℤ) (h0 : v < 0)
    (h1 : (10 : ℚ) ^ e ≤ -v) (h2 : -v < 10 ^ (e + 1)) : floorLog10 v = e := by
  apply (floorLog10_eq_iff (ne_of_lt h0)).mpr
  rw [abs_of_neg h0]
  exact ⟨h1, h2⟩

theorem floorLog10_zpow_mul {v : ℚ} (hv : v ≠ 0) (m : ℤ) :
    floorLog10 ((10 : ℚ) ^ m * v) = m + floorLog10 v := by
  have h10 : (0 : ℚ) < (10 : ℚ) ^ m := by positivity
  have hne : (10 : ℚ) ^ m * v ≠ 0 := mul_ne_zero (ne_of_gt h10) hv
  obtain ⟨h1, h2⟩ := floorLog10_spec hv
  have hz : ∀ a b : ℤ, (10 : ℚ) ^ (a + b) = 10 ^ a * 10 ^ b :=
    fun a b => zpow_add₀ (by norm_num) a b
  rw [floorLog10_eq_iff hne, abs_mul, abs_of_pos h10]
  constructor
  · rw [hz]
    exact mul_le_mul_of_nonneg_left h1 (le_of_lt h10)
  · have he : (10 : ℚ) ^ (m + floorLog10 v + 1) = 10 ^ m * 10 ^ (floorLog10 v + 1) := by
      rw [add_assoc, hz]
    rw [he]
    exact (mul_lt_mul_left h10).mpr h2

/-! ## Helper lemmas about `roundHalfEven` and `pyRound` -/

theorem roundHalfEven_intCast (m : ℤ) : roundHalfEven (m : ℚ) = m := by
  unfold roundHalfEven
  rw [Int.floor_intCast]
  norm_num

theorem roundHalfEven_eq_of_abs_lt {x : ℚ} {m : ℤ} (h : |x - m| < 1 / 2) :
    roundHalfEven x = m := by
  rw [abs_lt] at h
  obtain ⟨h1, h2⟩ := h
  unfold roundHalfEven
  rcases le_or_lt (m : ℚ) x with hmx | hmx
  · have hfl : ⌊x⌋ = m := by
      rw [Int.floor_eq_iff]
      constructor
      · exact_mod_cast hmx
      · linarith
    rw [hfl]
    rw [if_pos (by linarith)]
  · have hfl : ⌊x⌋ = m - 1 := by
      rw [Int.floor_eq_iff]
      push_cast
      constructor <;> linarith
    rw [hfl]
    rw [if_neg (by push_cast; linarith), if_pos (by push_cast; linarith)]
    omega

theorem roundHalfEven_tie (m : ℤ) :
    roundHalfEven ((m : ℚ) + 1 / 2) = if 2 ∣ m then m else m + 1 := by
  have hfl : ⌊(m : ℚ) + 1 / 2⌋ = m := by
    rw [Int.floor_eq_iff]
    constructor <;> norm_num
  unfold roundHalfEven
  rw [hfl]
  rw [if_neg (by norm_num), if_neg (by norm_num)]

theorem floor_le_roundHalfEven (x : ℚ) : ⌊x⌋ ≤ roundHalfEven x := by
  unfold roundHalfEven
  split_ifs <;> omega

theorem roundHalfEven_le_floor_add_one (x : ℚ) : roundHalfEven x ≤ ⌊x⌋ + 1 := by
  unfold roundHalfEven
  split_ifs <;> omega

theorem roundHalfEven_eq_of_between (x : ℚ) (m : ℤ)
    (h1 : (m : ℚ) - 1 / 2 < x) (h2 : x < m + 1 / 2) : roundHalfEven x = m :=
  roundHalfEven_eq_of_abs_lt (abs_lt.mpr ⟨by linarith, by linarith⟩)

theorem roundHalfEven_neg (x : ℚ) : roundHalfEven (-x) = -roundHalfEven x := by
  rcases eq_or_ne ((⌊x⌋ : ℚ)) x with hint | hint
  · obtain ⟨m, rfl⟩ : ∃ m : ℤ, x = (m : ℚ) := ⟨⌊x⌋, hint.symm⟩
    have hx : -(m : ℚ) = ((-m : ℤ) : ℚ) := by push_cast; ring
    rw [hx, roundHalfEven_intCast, roundHalfEven_intCast]
  · have hlt : (⌊x⌋ : ℚ) < x := lt_of_le_of_ne (Int.floor_le x) hint
    have hub : x < ⌊x⌋ + 1 := Int.lt_floor_add_one x
    have hfl : ⌊-x⌋ = -⌊x⌋ - 1 := by
      rw [Int.floor_eq_iff]
      push_cast
      constructor <;> linarith
    unfold roundHalfEven
    rw [hfl]
    push_cast
    split_ifs <;> first | omega | (exfalso; linarith)

/-- Evaluation helper: once the scaled value and its half-even rounding are
known, `pyRound` is a quotient of literals. -/
theorem pyRound_eval (v x : ℚ) (nd m : ℤ) (hx : v * 10 ^ nd = x)
    (hm : roundHalfEven x = m) : pyRound v nd = (m : ℚ) / 10 ^ nd := by
  unfold pyRound
  rw [hx, hm]

theorem pyRound_neg (v : ℚ) (nd : ℤ) : pyRound (-v) nd = -pyRound v nd := by
  unfold pyRound
  rw [neg_mul, roundHalfEven_neg]
  push_cast
  ring

theorem pyRound_scale (v : ℚ) (nd m : ℤ) :
    pyRound ((10 : ℚ) ^ m * v) (nd - m) = 10 ^ m * pyRound v nd := by
  have h0 : (10 : ℚ) ≠ 0 := by norm_num
  have hp : ∀ a : ℤ, (10 : ℚ) ^ a ≠ 0 := fun a => zpow_ne_zero a h0
  unfold pyRound
  have harg : (10 : ℚ) ^ m * v * 10 ^ (nd - m) = v * 10 ^ nd := by
    rw [zpow_sub₀ h0]
    field_simp
    ring
  rw [harg, zpow_sub₀ h0]
  field_simp
  ring

theorem le_pyRound_of_le {v : ℚ} {nd e : ℤ} (hnd : 0 ≤ e + nd)
    (hv : (10 : ℚ) ^ e ≤ v) : (10 : ℚ) ^ e ≤ pyRound v nd := by
  have h0 : (10 : ℚ) ≠ 0 := by norm_num
  have h10 : (0 : ℚ) < 10 ^ nd := by positivity
  have hx : (10 : ℚ) ^ (e + nd) ≤ v * 10 ^ nd := by
    rw [zpow_add₀ h0]
    exact mul_le_mul_of_nonneg_right hv (le_of_lt h10)
  obtain ⟨n, hn⟩ : ∃ n : ℕ, e + nd = (n : ℤ) :=
    ⟨(e + nd).toNat, (Int.toNat_of_nonneg hnd).symm⟩
  have hN : ((10 ^ n : ℤ) : ℚ) = (10 : ℚ) ^ (e + nd) := by
    rw [hn]
    push_cast
    rw [zpow_natCast]
  have hfloor : (10 ^ n : ℤ) ≤ ⌊v * 10 ^ nd⌋ := by
    rw [Int.le_floor, hN]
    exact hx
  have hrhe : (10 ^ n : ℤ) ≤ roundHalfEven (v * 10 ^ nd) :=
    le_trans hfloor (floor_le_roundHalfEven _)
  have hq : (10 : ℚ) ^ (e + nd) ≤ (roundHalfEven (v * 10 ^ nd) : ℚ) := by
    rw [← hN]
    exact_mod_cast hrhe
  unfold pyRound
  rw [le_div_iff₀ h10, ← zpow_add₀ h0]
  exact hq

/-- Rounding at `ndigits = -rd` is half-even rounding to the decimal place
`10 ^ rd`. -/
theorem pyRound_as_place (v : ℚ) (rd : ℤ) :
    pyRound v (-rd) = (roundHalfEven (v / 10 ^ rd) : ℚ) * 10 ^ rd := by
  unfold pyRound
  rw [zpow_neg, ← div_eq_mul_inv, div_inv_eq_mul]

theorem pyRound_sub_eq_place (v : ℚ) (s e : ℤ) :
    pyRound v (s - 1 - e) =
      (roundHalfEven (v / 10 ^ (e - s + 1)) : ℚ) * 10 ^ (e - s + 1) := by
  have hx : s - 1 - e = -(e - s + 1) := by ring
  rw [hx, pyRound_as_place]

/-- Every `pyRound` result is an integer multiple of `10 ^ (-ndigits)`. -/
theorem pyRound_mul_form (v : ℚ) (nd : ℤ) :
    pyRound v nd = (roundHalfEven (v * 10 ^ nd) : ℚ) * 10 ^ (-nd) := by
  unfold pyRound
  rw [zpow_neg, div_eq_mul_inv]

/-! ## Helper lemmas about `List.min?` on `ℤ` -/

theorem intList_min?_eq_some_iff {l : List ℤ} {a : ℤ} :
    l.min? = some a ↔ a ∈ l ∧ ∀ b ∈ l, a ≤ b := by
  exact @List.min?_eq_some_iff ℤ a _ _ ⟨fun h1 h2 => le_antisymm h1 h2⟩
    le_refl min_choice (fun _ _ _ => le_min_iff) l

theorem intList_min?_isSome {l : List ℤ} (hl : l ≠ []) :
    ∃ a, l.min? = some a := by
  cases l with
  | nil => exact absurd rfl hl
  | cons x xs =>
    rw [List.min?_cons]
    exact ⟨_, rfl⟩

theorem intList_min?_map_add {l : List ℤ} {a : ℤ} (m : ℤ)
    (h : l.min? = some a) :
    (l.map fun x => m + x).min? = some (m + a) := by
  rw [intList_min?_eq_some_iff] at h ⊢
  obtain ⟨hmem, hle⟩ := h
  constructor
  · exact List.mem_map_of_mem _ hmem
  · intro b hb
    obtain ⟨x, hx, rfl⟩ := List.mem_map.mp hb
    exact add_le_add_left (hle x hx) m

/-! ## Unfolding lemmas for `round_consistently` -/

theorem round_consistently_core_eq_ok {values : List ℚ} {s min_exp : ℤ}
    (hnz : ∀ v ∈ values, v ≠ 0)
    (hmin : (values.map floorLog10).min? = some min_exp) :
    round_consistently_core values s =
      .ok (values.map fun v => pyRound v (s - 1 - min_exp), min_exp - s + 1) := by
  have hany : (values.any fun v => decide (v = 0)) = false := by
    rw [List.any_eq_false]
    intro v hv
    simpa using hnz v hv
  have harg : ∀ v : ℚ, pyRound v (-(min_exp - s + 1)) = pyRound v (s - 1 - min_exp) := by
    intro v
    congr 1
    ring
  simp only [round_consistently_core, hany, Bool.false_eq_true, if_false, hmin, harg]

theorem round_consistently_true_eq_ok {values : List ℚ} {s min_exp : ℤ}
    (hnz : ∀ v ∈ values, v ≠ 0)
    (hmin : (values.map floorLog10).min? = some min_exp) :
    round_consistently values s true =
      .ok (.inr (values.map fun v => pyRound v (s - 1 - min_exp), min_exp - s + 1)) := by
  unfold round_consistently
  rw [round_consistently_core_eq_ok hnz hmin]
  rfl

theorem round_consistently_false_eq_ok {values : List ℚ} {s min_exp : ℤ}
    (hnz : ∀ v ∈ values, v ≠ 0)
    (hmin : (values.map floorLog10).min? = some min_exp) :
    round_consistently values s false =
      .ok (.inl (values.map fun v => pyRound v (s - 1 - min_exp))) := by
  unfold round_consistently
  rw [round_consistently_core_eq_ok hnz hmin]
  rfl

theorem round_consistently_core_zero {values : List ℚ} (s : ℤ)
    (h0 : (0 : ℚ) ∈ values) :
    round_consistently_core values s = .error .logOfZero := by
  have hany : (values.any fun v => decide (v = 0)) = true := by
    rw [List.any_eq_true]
    exact ⟨0, h0, by simp⟩
  simp only [round_consistently_core, hany, if_true]

theorem round_consistently_core_nil (s : ℤ) :
    round_consistently_core [] s = .error .emptyInput := rfl

theorem round_consistently_core_isOk_iff {values : List ℚ} {s : ℤ} :
    (∃ p, round_consistently_core values s = .ok p) ↔
      (values ≠ [] ∧ ∀ v ∈ values, v ≠ 0) := by
  constructor
  · rintro ⟨p, hp⟩
    by_contra hcon
    rw [not_and_or] at hcon
    rcases hcon with hnil | hz
    · rw [not_ne_iff] at hnil
      subst hnil
      rw [round_consistently_core_nil] at hp
      exact Except.noConfusion hp
    · push_neg at hz
      obtain ⟨v, hv, hv0⟩ := hz
      subst hv0
      rw [round_consistently_core_zero s hv] at hp
      exact Except.noConfusion hp
  · rintro ⟨hne, hnz⟩
    have hmapne : values.map floorLog10 ≠ [] := by
      simpa using hne
    obtain ⟨a, ha⟩ := intList_min?_isSome hmapne
    exact ⟨_, round_consistently_core_eq_ok hnz ha⟩

/-! ## Unfolding lemmas for `formatFixed` and `center_and_range_latex` -/

theorem formatFixed_div_pow (k : ℤ) (nf : ℕ) :
    formatFixed ((k : ℚ) / 10 ^ nf) nf =
      (if k < 0 then "-" else "") ++
      (if nf = 0 then toString k.natAbs
       else toString (k.natAbs / 10 ^ nf) ++ "." ++
         padZeros (toString (k.natAbs % 10 ^ nf)) nf) := by
  have h10 : (0 : ℚ) < 10 ^ nf := by positivity
  have harg : (k : ℚ) / 10 ^ nf * 10 ^ nf = (k : ℚ) := by field_simp
  have hsign : ((k : ℚ) / 10 ^ nf < 0) ↔ (k < 0) := by
    rw [div_neg_iff]
    constructor
    · rintro (⟨_, hb⟩ | ⟨ha, _⟩)
      · linarith
      · exact_mod_cast ha
    · intro hk
      right
      exact ⟨by exact_mod_cast hk, h10⟩
  simp only [formatFixed, harg, roundHalfEven_intCast, hsign]
  split_ifs <;> rfl

/-- Evaluation helper: formatting a `pyRound` result at the matching number
of fractional digits. -/
theorem formatFixed_pyRound (v : ℚ) (nf : ℕ) (m : ℤ)
    (h1 : (m : ℚ) - 1 / 2 < v * 10 ^ (nf : ℤ)) (h2 : v * 10 ^ (nf : ℤ) < m + 1 / 2) :
    formatFixed (pyRound v (nf : ℤ)) nf =
      (if m < 0 then "-" else "") ++
      (if nf = 0 then toString m.natAbs
       else toString (m.natAbs / 10 ^ nf) ++ "." ++
         padZeros (toString (m.natAbs % 10 ^ nf)) nf) := by
  have hm : roundHalfEven (v * 10 ^ (nf : ℤ)) = m :=
    roundHalfEven_eq_of_between _ _ h1 h2
  have hq : pyRound v (nf : ℤ) = (m : ℚ) / 10 ^ nf := by
    unfold pyRound
    rw [hm, zpow_natCast]
  rw [hq, formatFixed_div_pow]

/-- Evaluation helper: formatting a `pyRound` result that is a whole number
with zero fractional digits. -/
theorem formatFixed_pyRound_int (v : ℚ) (nd m k : ℤ)
    (h1 : (m : ℚ) - 1 / 2 < v * 10 ^ nd) (h2 : v * 10 ^ nd < m + 1 / 2)
    (hk : (m : ℚ) / 10 ^ nd = (k : ℚ)) :
    formatFixed (pyRound v nd) 0 =
      (if k < 0 then "-" else "") ++ toString k.natAbs := by
  have hm : roundHalfEven (v * 10 ^ nd) = m :=
    roundHalfEven_eq_of_between _ _ h1 h2
  have hq : pyRound v nd = (k : ℚ) := by
    unfold pyRound
    rw [hm, hk]
  have hk0 : (k : ℚ) = (k : ℚ) / 10 ^ (0 : ℕ) := by norm_num
  rw [hq, hk0, formatFixed_div_pow]
  simp

theorem center_and_range_latex_eq {c l h : ℚ} {s min_exp : ℤ}
    (hc : c ≠ 0) (hu : h - c ≠ 0) (hl : c - l ≠ 0)
    (hmin : ([c, h - c, c - l].map floorLog10).min? = some min_exp) :
    center_and_range_latex c l h s = .ok
      (formatFixed (pyRound c (s - 1 - min_exp))
          (if min_exp - s + 1 < 0 then (min_exp - s + 1).natAbs else 0) ++ "^\x7b+" ++
        formatFixed (pyRound (h - c) (s - 1 - min_exp))
          (if min_exp - s + 1 < 0 then (min_exp - s + 1).natAbs else 0) ++ "\x7d_\x7b-" ++
        formatFixed (pyRound (c - l) (s - 1 - min_exp))
          (if min_exp - s + 1 < 0 then (min_exp - s + 1).natAbs else 0) ++ "\x7d") := by
  have hnz : ∀ v ∈ [c, h - c, c - l], v ≠ 0 := by
    intro v hv
    simp only [List.mem_cons, List.not_mem_nil, or_false] at hv
    rcases hv with rfl | rfl | rfl <;> assumption
  simp only [center_and_range_latex]
  rw [round_consistently_true_eq_ok hnz hmin]
  simp only [List.map_cons, List.map_nil]

theorem center_and_range_latex_error_left {c l h : ℚ} (s : ℤ)
    (hz : c = 0 ∨ h - c = 0 ∨ c - l = 0) :
    center_and_range_latex c l h s = .error .logOfZero := by
  have h0 : (0 : ℚ) ∈ [c, h - c, c - l] := by
    rcases hz with hz | hz | hz <;> rw [← hz] <;> simp
  simp only [center_and_range_latex, round_consistently]
  rw [round_consistently_core_zero s h0]
  rfl

theorem center_and_range_latex_isOk_iff (c l h : ℚ) (s : ℤ) :
    (∃ str, center_and_range_latex c l h s = .ok str) ↔
      (c ≠ 0 ∧ h - c ≠ 0 ∧ c - l ≠ 0) := by
  constructor
  · rintro ⟨str, hstr⟩
    by_contra hcon
    have hz : c = 0 ∨ h - c = 0 ∨ c - l = 0 := by tauto
    rw [center_and_range_latex_error_left s hz] at hstr
    exact Except.noConfusion hstr
  · rintro ⟨hc, hu, hl⟩
    have hmapne : [c, h - c, c - l].map floorLog10 ≠ [] := by simp
    obtain ⟨a, ha⟩ := intList_min?_isSome hmapne
    exact ⟨_, center_and_range_latex_eq hc hu hl ha⟩

/-! ## Claim theorems -/

/-- C1: for every non-empty sequence of non-zero values and positive
`min_sig_digits`, `round_consistently` computes
`round_digit = (min over v of floor(log10 |v|)) - min_sig_digits + 1`,
rounds every value to the decimal place `10^round_digit` with
round-half-to-even semantics, and returns the rounded sequence paired with
`round_digit` when `return_least_sig` is true; on the documented triple the
returned round digit is `-2`. -/
theorem round_consistently_computes_round_digit_and_rounds :
    (∀ (values : List ℚ) (s min_exp : ℤ),
      (∀ v ∈ values, v ≠ 0) → 0 < s →
      (values.map floorLog10).min? = some min_exp →
      round_consistently values s true =
        .ok (.inr (values.map fun v =>
            (roundHalfEven (v / 10 ^ (min_exp - s + 1)) : ℚ) *
              10 ^ (min_exp - s + 1),
          min_exp - s + 1))) ∧
    round_consistently
        [1.0584378784847064, -0.8138475623409628, -0.6127108398864638] 2 true =
      .ok (.inr ([1.06, -0.81, -0.61], -2)) := by
  constructor
  · intro values s min_exp hnz _ hmin
    rw [round_consistently_true_eq_ok hnz hmin]
    simp only [pyRound_sub_eq_place]
  · have hnz : ∀ v ∈ [(1.0584378784847064 : ℚ), -0.8138475623409628,
        -0.6127108398864638], v ≠ 0 := by
      intro v hv
      simp only [List.mem_cons, List.not_mem_nil, or_false] at hv
      rcases hv with rfl | rfl | rfl <;> norm_num
    have he1 : floorLog10 (1.0584378784847064 : ℚ) = 0 :=
      floorLog10_of_pos 0 (by norm_num) (by norm_num) (by norm_num)
    have he2 : floorLog10 (-0.8138475623409628 : ℚ) = -1 :=
      floorLog10_of_neg (-1) (by norm_num) (by norm_num) (by norm_num)
    have he3 : floorLog10 (-0.6127108398864638 : ℚ) = -1 :=
      floorLog10_of_neg (-1) (by norm_num) (by norm_num) (by norm_num)
    have hmin : ([(1.0584378784847064 : ℚ), -0.8138475623409628,
        -0.6127108398864638].map floorLog10).min? = some (-1) := by
      rw [List.map_cons, List.map_cons, List.map_cons, List.map_nil,
        he1, he2, he3]
      decide
    rw [round_consistently_true_eq_ok hnz hmin]
    have hp1 : pyRound (1.0584378784847064 : ℚ) (2 - 1 - (-1)) = (1.06 : ℚ) := by
      rw [(by norm_num : (2 : ℤ) - 1 - (-1) = 2),
        pyRound_eval 1.0584378784847064 105.84378784847064 2 106 (by norm_num)
          (roundHalfEven_eq_of_between _ 106 (by norm_num) (by norm_num))]
      norm_num
    have hp2 : pyRound (-0.8138475623409628 : ℚ) (2 - 1 - (-1)) = (-0.81 : ℚ) := by
      rw [(by norm_num : (2 : ℤ) - 1 - (-1) = 2),
        pyRound_eval (-0.8138475623409628) (-81.38475623409628) 2 (-81) (by norm_num)
          (roundHalfEven_eq_of_between _ (-81) (by norm_num) (by norm_num))]
      norm_num
    have hp3 : pyRound (-0.6127108398864638 : ℚ) (2 - 1 - (-1)) = (-0.61 : ℚ) := by
      rw [(by norm_num : (2 : ℤ) - 1 - (-1) = 2),
        pyRound_eval (-0.6127108398864638) (-61.27108398864638) 2 (-61) (by norm_num)
          (roundHalfEven_eq_of_between _ (-61) (by norm_num) (by norm_num))]
      norm_num
    rw [List.map_cons, List.map_cons, List.map_cons, List.map_nil,
      hp1, hp2, hp3]
    norm_num

/-- Witness for C1 at the input `[2]` with `min_sig_digits = 1`. -/
theorem round_consistently_computes_round_digit_and_rounds_witness :
    round_consistently [(2 : ℚ)] 1 true = .ok (.inr ([(2 : ℚ)], 0)) := by
  have he : floorLog10 (2 : ℚ) = 0 :=
    floorLog10_of_pos 0 (by norm_num) (by norm_num) (by norm_num)
  have hmin : ([(2 : ℚ)].map floorLog10).min? = some 0 := by
    rw [List.map_cons, List.map_nil, he]
    decide
  have h := round_consistently_computes_round_digit_and_rounds.1 [(2 : ℚ)] 1 0
    (by intro v hv; simp only [List.mem_cons, List.not_mem_nil, or_false] at hv;
        rw [hv]; norm_num)
    (by norm_num) hmin
  rw [h]
  have hr : roundHalfEven ((2 : ℚ) / 10 ^ ((0 : ℤ) - 1 + 1)) = 2 := by
    apply roundHalfEven_eq_of_between
    · norm_num
    · norm_num
  rw [List.map_cons, List.map_nil, hr]
  norm_num

/-- C2: all outputs of `round_consistently` are rounded to the same decimal
place `10^(min_exp - min_sig_digits + 1)` — derived solely from the minimum
magnitude exponent and `min_sig_digits` — each being an integer multiple of
that place, and the `i`-th output is the rounding of the `i`-th input. -/
theorem round_consistently_same_place_and_order :
    ∀ (values : List ℚ) (s min_exp : ℤ),
      (∀ v ∈ values, v ≠ 0) → 1 ≤ s →
      (values.map floorLog10).min? = some min_exp →
      ∃ rounded : List ℚ,
        round_consistently values s false = .ok (.inl rounded) ∧
        rounded.length = values.length ∧
        ∀ i (hi : i < values.length),
          rounded[i]? = some (pyRound values[i] (s - 1 - min_exp)) ∧
          ∃ m : ℤ, pyRound values[i] (s - 1 - min_exp) =
            (m : ℚ) * 10 ^ (min_exp - s + 1) := by
  intro values s min_exp hnz hs hmin
  refine ⟨_, round_consistently_false_eq_ok hnz hmin, List.length_map .., ?_⟩
  intro i hi
  constructor
  · rw [List.getElem?_map, List.getElem?_eq_getElem hi]
    rfl
  · refine ⟨roundHalfEven (values[i] * 10 ^ (s - 1 - min_exp)), ?_⟩
    rw [pyRound_mul_form, (by ring : -(s - 1 - min_exp) = min_exp - s + 1)]

/-- Witness for C2 at the input `[2]` with `min_sig_digits = 1`. -/
theorem round_consistently_same_place_and_order_witness :
    ∃ rounded : List ℚ,
      round_consistently [(2 : ℚ)] 1 false = .ok (.inl rounded) ∧
      rounded.length = [(2 : ℚ)].length ∧
      ∀ i (hi : i < [(2 : ℚ)].length),
        rounded[i]? = some (pyRound [(2 : ℚ)][i] (1 - 1 - 0)) ∧
        ∃ m : ℤ, pyRound [(2 : ℚ)][i] (1 - 1 - 0) =
          (m : ℚ) * 10 ^ ((0 : ℤ) - 1 + 1) := by
  have he : floorLog10 (2 : ℚ) = 0 :=
    floorLog10_of_pos 0 (by norm_num) (by norm_num) (by norm_num)
  have hmin : ([(2 : ℚ)].map floorLog10).min? = some 0 := by
    rw [List.map_cons, List.map_nil, he]
    decide
  exact round_consistently_same_place_and_order [(2 : ℚ)] 1 0
    (by intro v hv; simp only [List.mem_cons, List.not_mem_nil, or_false] at hv;
        rw [hv]; norm_num)
    (by norm_num) hmin

/-- C3: the smallest-magnitude element of the input retains, after rounding
by `round_consistently`, at least `min_sig_digits` significant digits: its
rounded value keeps magnitude at least `10^min_exp`, so it carries at least
`min_sig_digits` digits down to the shared rounding place. -/
theorem round_consistently_min_magnitude_keeps_sig_digits :
    ∀ (values : List ℚ) (s min_exp : ℤ) (i : ℕ) (hi : i < values.length),
      (∀ v ∈ values, v ≠ 0) → 1 ≤ s →
      (values.map floorLog10).min? = some min_exp →
      (∀ w ∈ values, |values[i]| ≤ |w|) →
      ∃ (rounded : List ℚ) (r : ℚ),
        round_consistently values s false = .ok (.inl rounded) ∧
        rounded[i]? = some r ∧
        (10 : ℚ) ^ min_exp ≤ |r| ∧
        s ≤ sigDigitsAt r (min_exp - s + 1) := by
  intro values s min_exp i hi hnz hs hmin hminmag
  have hvmem : values[i] ∈ values := List.getElem_mem hi
  have hv0 : values[i] ≠ 0 := hnz _ hvmem
  obtain ⟨hmem, hle⟩ := intList_min?_eq_some_iff.mp hmin
  obtain ⟨w, hwmem, hwe⟩ := List.mem_map.mp hmem
  have h1 : floorLog10 values[i] ≤ min_exp :=
    hwe ▸ floorLog10_mono hv0 (hminmag w hwmem)
  have h2 : min_exp ≤ floorLog10 values[i] :=
    hle _ (List.mem_map_of_mem _ hvmem)
  have hve : floorLog10 values[i] = min_exp := le_antisymm h1 h2
  have hend : 0 ≤ min_exp + (s - 1 - min_exp) := by omega
  have habs : (10 : ℚ) ^ min_exp ≤ |pyRound values[i] (s - 1 - min_exp)| := by
    obtain ⟨hlb, _⟩ := floorLog10_spec hv0
    rw [hve] at hlb
    rcases lt_or_gt_of_ne hv0 with hneg | hpos
    · have hnv : (10 : ℚ) ^ min_exp ≤ -values[i] := by
        rwa [abs_of_neg hneg] at hlb
      have hp := le_pyRound_of_le hend hnv
      have hrn : pyRound values[i] (s - 1 - min_exp) =
          -pyRound (-values[i]) (s - 1 - min_exp) := by
        rw [pyRound_neg]
        ring
      rw [hrn, abs_neg]
      exact le_trans hp (le_abs_self _)
    · have hpv : (10 : ℚ) ^ min_exp ≤ values[i] := by
        rwa [abs_of_pos hpos] at hlb
      exact le_trans (le_pyRound_of_le hend hpv) (le_abs_self _)
  have hr0 : pyRound values[i] (s - 1 - min_exp) ≠ 0 := by
    intro h0
    rw [h0, abs_zero] at habs
    have hpow : (0 : ℚ) < 10 ^ min_exp := by positivity
    linarith
  refine ⟨_, pyRound values[i] (s - 1 - min_exp),
    round_consistently_false_eq_ok hnz hmin, ?_, habs, ?_⟩
  · rw [List.getElem?_map, List.getElem?_eq_getElem hi]
    rfl
  · have hlog := le_floorLog10_of_le hr0 habs
    unfold sigDigitsAt
    omega

/-- Witness for C3 at the input `[2]` with `min_sig_digits = 1`. -/
theorem round_consistently_min_magnitude_keeps_sig_digits_witness :
    ∃ (rounded : List ℚ) (r : ℚ),
      round_consistently [(2 : ℚ)] 1 false = .ok (.inl rounded) ∧
      rounded[0]? = some r ∧
      (10 : ℚ) ^ (0 : ℤ) ≤ |r| ∧
      1 ≤ sigDigitsAt r ((0 : ℤ) - 1 + 1) := by
  have he : floorLog10 (2 : ℚ) = 0 :=
    floorLog10_of_pos 0 (by norm_num) (by norm_num) (by norm_num)
  have hmin : ([(2 : ℚ)].map floorLog10).min? = some 0 := by
    rw [List.map_cons, List.map_nil, he]
    decide
  exact round_consistently_min_magnitude_keeps_sig_digits [(2 : ℚ)] 1 0 0
    (by norm_num)
    (by intro v hv; simp only [List.mem_cons, List.not_mem_nil, or_false] at hv;
        rw [hv]; norm_num)
    (by norm_num) hmin
    (by intro w hw; simp only [List.mem_cons, List.not_mem_nil, or_false] at hw;
        rw [hw]; simp)

/-- C5: `round_consistently` surfaces an explicit error — rather than a NaN
or infinity — both when an input element is zero and magnitude-minimizing
(the undefined logarithm) and when the input sequence is empty (no defined
minimum). -/
theorem round_consistently_explicit_errors :
    (∀ (values : List ℚ) (s : ℤ) (b : Bool) (v : ℚ),
      v ∈ values → v = 0 → (∀ w ∈ values, |v| ≤ |w|) →
      round_consistently values s b = .error .logOfZero) ∧
    (∀ (s : ℤ) (b : Bool), round_consistently [] s b = .error .emptyInput) := by
  constructor
  · intro values s b v hmem h0 _
    subst h0
    unfold round_consistently
    rw [round_consistently_core_zero s hmem]
    rfl
  · intro s b
    unfold round_consistently
    rw [round_consistently_core_nil]
    rfl

/-- Witness for C5 at the inputs `[0]` and `[]`. -/
theorem round_consistently_explicit_errors_witness :
    round_consistently [(0 : ℚ)] 2 false = .error .logOfZero ∧
    round_consistently ([] : List ℚ) 2 false = .error .emptyInput :=
  ⟨round_consistently_explicit_errors.1 [(0 : ℚ)] 2 false 0 (by simp) rfl
      (by intro w hw; simp only [List.mem_cons, List.not_mem_nil, or_false] at hw;
          rw [hw]),
    round_consistently_explicit_errors.2 2 false⟩

/-- C9: `round_consistently` performs no validation of `min_sig_digits`:
for every integer `min_sig_digits` — zero and negative included — and every
non-empty sequence of non-zero values it returns normally with the same
formula `round_digit = min_exp - min_sig_digits + 1`; with
`min_sig_digits = 0` the input `[5]` even rounds to zero. -/
theorem round_consistently_no_min_sig_digits_validation :
    (∀ (values : List ℚ) (s min_exp : ℤ),
      (∀ v ∈ values, v ≠ 0) →
      (values.map floorLog10).min? = some min_exp →
      round_consistently values s true =
        .ok (.inr (values.map fun v => pyRound v (s - 1 - min_exp),
          min_exp - s + 1))) ∧
    round_consistently [(5 : ℚ)] 0 false = .ok (.inl [0]) := by
  constructor
  · intro values s min_exp hnz hmin
    exact round_consistently_true_eq_ok hnz hmin
  · have he : floorLog10 (5 : ℚ) = 0 :=
      floorLog10_of_pos 0 (by norm_num) (by norm_num) (by norm_num)
    have hmin : ([(5 : ℚ)].map floorLog10).min? = some 0 := by
      rw [List.map_cons, List.map_nil, he]
      decide
    rw [round_consistently_false_eq_ok
      (by intro v hv; simp only [List.mem_cons, List.not_mem_nil, or_false] at hv;
          rw [hv]; norm_num) hmin]
    have hp : pyRound (5 : ℚ) (0 - 1 - 0) = 0 := by
      rw [(by norm_num : (0 : ℤ) - 1 - 0 = -1)]
      have harg : (5 : ℚ) * 10 ^ (-1 : ℤ) = ((0 : ℤ) : ℚ) + 1 / 2 := by norm_num
      unfold pyRound
      rw [harg, roundHalfEven_tie]
      norm_num
    rw [List.map_cons, List.map_nil, hp]

/-- Witness for C9 at the input `[1]` with the negative
`min_sig_digits = -1`. -/
theorem round_consistently_no_min_sig_digits_validation_witness :
    round_consistently [(1 : ℚ)] (-1) true = .ok (.inr ([0], 2)) := by
  have he : floorLog10 (1 : ℚ) = 0 :=
    floorLog10_of_pos 0 (by norm_num) (by norm_num) (by norm_num)
  have hmin : ([(1 : ℚ)].map floorLog10).min? = some 0 := by
    rw [List.map_cons, List.map_nil, he]
    decide
  have h := round_consistently_no_min_sig_digits_validation.1 [(1 : ℚ)] (-1) 0
    (by intro v hv; simp only [List.mem_cons, List.not_mem_nil, or_false] at hv;
        rw [hv]; norm_num) hmin
  rw [h]
  have hp : pyRound (1 : ℚ) (-1 - 1 - 0) = 0 := by
    rw [(by norm_num : (-1 : ℤ) - 1 - 0 = -2),
      pyRound_eval 1 (1 / 100) (-2) 0 (by norm_num)
        (roundHalfEven_eq_of_between _ 0 (by norm_num) (by norm_num))]
    norm_num
  rw [List.map_cons, List.map_nil, hp]
  norm_num

/-- C7: scaling every input by a power of ten `k = 10 ^ m` scales the output
of `round_consistently` by exactly `k`: the exponent-based rounding logic is
invariant under power-of-ten scaling. -/
theorem round_consistently_power_of_ten_scaling :
    ∀ (values : List ℚ) (s m : ℤ) (rounded : List ℚ),
      (∀ v ∈ values, v ≠ 0) → values ≠ [] →
      round_consistently values s false = .ok (.inl rounded) →
      round_consistently (values.map fun v => (10 : ℚ) ^ m * v) s false =
        .ok (.inl (rounded.map fun r => (10 : ℚ) ^ m * r)) := by
  intro values s m rounded hnz hne hok
  have hmapne : values.map floorLog10 ≠ [] := by simpa using hne
  obtain ⟨e, he⟩ := intList_min?_isSome hmapne
  rw [round_consistently_false_eq_ok hnz he] at hok
  have hrounded : rounded = values.map fun v => pyRound v (s - 1 - e) :=
    (Sum.inl.inj (Except.ok.inj hok)).symm
  subst hrounded
  have hnz2 : ∀ v ∈ values.map fun v => (10 : ℚ) ^ m * v, v ≠ 0 := by
    intro v hv
    obtain ⟨w, hw, rfl⟩ := List.mem_map.mp hv
    exact mul_ne_zero (by positivity) (hnz w hw)
  have hmap2 : (values.map fun v => (10 : ℚ) ^ m * v).map floorLog10 =
      (values.map floorLog10).map fun x => m + x := by
    rw [List.map_map, List.map_map]
    apply List.map_congr_left
    intro v hv
    simp only [Function.comp_apply]
    exact floorLog10_zpow_mul (hnz v hv) m
  have he2 : ((values.map fun v => (10 : ℚ) ^ m * v).map floorLog10).min? =
      some (m + e) := by
    rw [hmap2]
    exact intList_min?_map_add m he
  rw [round_consistently_false_eq_ok hnz2 he2]
  congr 1
  congr 1
  rw [List.map_map, List.map_map]
  apply List.map_congr_left
  intro v hv
  simp only [Function.comp_apply]
  rw [(by ring : s - 1 - (m + e) = (s - 1 - e) - m), pyRound_scale]

/-- Witness for C7 at the input `[2]`, `min_sig_digits = 1`, scale `10`. -/
theorem round_consistently_power_of_ten_scaling_witness :
    round_consistently ([(2 : ℚ)].map fun v => (10 : ℚ) ^ (1 : ℤ) * v) 1 false =
      .ok (.inl ([(2 : ℚ)].map fun r => (10 : ℚ) ^ (1 : ℤ) * r)) := by
  have he : floorLog10 (2 : ℚ) = 0 :=
    floorLog10_of_pos 0 (by norm_num) (by norm_num) (by norm_num)
  have hmin : ([(2 : ℚ)].map floorLog10).min? = some 0 := by
    rw [List.map_cons, List.map_nil, he]
    decide
  have hok : round_consistently [(2 : ℚ)] 1 false = .ok (.inl [(2 : ℚ)]) := by
    rw [round_consistently_false_eq_ok
      (by intro v hv; simp only [List.mem_cons, List.not_mem_nil, or_false] at hv;
          rw [hv]; norm_num) hmin]
    have hp : pyRound (2 : ℚ) (1 - 1 - 0) = 2 := by
      rw [(by norm_num : (1 : ℤ) - 1 - 0 = 0),
        pyRound_eval 2 2 0 2 (by norm_num)
          (roundHalfEven_eq_of_between _ 2 (by norm_num) (by norm_num))]
      norm_num
    rw [List.map_cons, List.map_nil, hp]
  exact round_consistently_power_of_ten_scaling [(2 : ℚ)] 1 1 [(2 : ℚ)]
    (by intro v hv; simp only [List.mem_cons, List.not_mem_nil, or_false] at hv;
        rw [hv]; norm_num)
    (by simp) hok

/-- C4: `center_and_range_latex` computes the deltas `upper - center` and
`center - lower`, rounds the triple `[center, upper_delta, lower_delta]`
with a shared round digit, prints `abs(round_digit)` fractional digits when
`round_digit < 0` and `0` otherwise, and returns the single string
`center^{+upper_delta}_{-lower_delta}` with all three fields in fixed-point
notation at that fractional-digit count. -/
theorem center_and_range_latex_structure :
    ∀ (c l h : ℚ) (s min_exp : ℤ) (nf : ℕ),
      c ≠ 0 → h - c ≠ 0 → c - l ≠ 0 →
      ([c, h - c, c - l].map floorLog10).min? = some min_exp →
      nf = (if min_exp - s + 1 < 0 then (min_exp - s + 1).natAbs else 0) →
      center_and_range_latex c l h s = .ok
        (formatFixed (pyRound c (s - 1 - min_exp)) nf ++ "^\x7b+" ++
          formatFixed (pyRound (h - c) (s - 1 - min_exp)) nf ++ "\x7d_\x7b-" ++
          formatFixed (pyRound (c - l) (s - 1 - min_exp)) nf ++ "\x7d") := by
  intro c l h s min_exp nf hc hu hl hmin hnf
  subst hnf
  exact center_and_range_latex_eq hc hu hl hmin

/-- Witness for C4 at the input `(2, 1, 4)`. -/
theorem center_and_range_latex_structure_witness :
    center_and_range_latex 2 1 4 2 = .ok "2.0^\x7b+2.0\x7d_\x7b-1.0\x7d" := by
  have hd1 : (4 : ℚ) - 2 = 2 := by norm_num
  have hd2 : (2 : ℚ) - 1 = 1 := by norm_num
  have he1 : floorLog10 (2 : ℚ) = 0 :=
    floorLog10_of_pos 0 (by norm_num) (by norm_num) (by norm_num)
  have he2 : floorLog10 (1 : ℚ) = 0 :=
    floorLog10_of_pos 0 (by norm_num) (by norm_num) (by norm_num)
  have hmin : (([2, 4 - 2, 2 - 1] : List ℚ).map floorLog10).min? = some 0 := by
    rw [hd1, hd2, List.map_cons, List.map_cons, List.map_cons, List.map_nil,
      he1, he2]
    decide
  have h := center_and_range_latex_structure 2 1 4 2 0 1
    (by norm_num) (by norm_num) (by norm_num) hmin (by norm_num)
  rw [h, hd1, hd2, (by norm_num : (2 : ℤ) - 1 - 0 = ((1 : ℕ) : ℤ))]
  rw [formatFixed_pyRound 2 1 20 (by push_cast; norm_num) (by push_cast; norm_num),
    formatFixed_pyRound 1 1 10 (by push_cast; norm_num) (by push_cast; norm_num)]
  rfl

/-- C6 counterexample: the claim predicts that a zero `lower` bound that is
the minimum-magnitude element of the triple `(center, lower, upper)` makes
the call fail, but at `(c, l, h) = (1, 0, 2)` — where `l = 0` is zero and
minimizes magnitude among the three inputs — the call succeeds, because the
rounder is applied to the delta triple `[c, h - c, c - l] = [1, 1, 1]`,
which contains no zero. -/
theorem center_and_range_latex_zero_bound_counterexample :
    center_and_range_latex 1 0 2 2 = .ok "1.0^\x7b+1.0\x7d_\x7b-1.0\x7d" := by
  have hd1 : (2 : ℚ) - 1 = 1 := by norm_num
  have hd2 : (1 : ℚ) - 0 = 1 := by norm_num
  have he1 : floorLog10 (1 : ℚ) = 0 :=
    floorLog10_of_pos 0 (by norm_num) (by norm_num) (by norm_num)
  have hmin : (([1, 2 - 1, 1 - 0] : List ℚ).map floorLog10).min? = some 0 := by
    rw [hd1, hd2, List.map_cons, List.map_cons, List.map_cons, List.map_nil, he1]
    decide
  rw [center_and_range_latex_eq (by norm_num) (by norm_num) (by norm_num) hmin,
    hd1, hd2, (by norm_num : (2 : ℤ) - 1 - 0 = ((1 : ℕ) : ℤ)),
    (by norm_num : (if (0 : ℤ) - 2 + 1 < 0 then ((0 : ℤ) - 2 + 1).natAbs else 0) = 1)]
  rw [formatFixed_pyRound 1 1 10 (by push_cast; norm_num) (by push_cast; norm_num)]
  rfl

/-- C6 amended: `center_and_range_latex c l h s` fails exactly when one of
the elements of the rounded triple — `center`, `upper - center`, or
`center - lower` — is zero (a zero element always minimizes magnitude, and
its logarithm is undefined); a zero `lower` or `upper` input alone does not
cause failure. -/
theorem center_and_range_latex_failure_iff :
    ∀ (c l h : ℚ) (s : ℤ),
      (∃ e, center_and_range_latex c l h s = .error e) ↔
        (c = 0 ∨ h - c = 0 ∨ c - l = 0) := by
  intro c l h s
  constructor
  · rintro ⟨e, he⟩
    by_contra hcon
    push_neg at hcon
    obtain ⟨hc, hu, hl⟩ := hcon
    obtain ⟨str, hstr⟩ := (center_and_range_latex_isOk_iff c l h s).mpr ⟨hc, hu, hl⟩
    rw [hstr] at he
    exact Except.noConfusion he
  · intro hz
    exact ⟨_, center_and_range_latex_error_left s hz⟩

/-- Witness for the amended C6 at the input `(0, -1, 1)`: a zero center
makes the call fail. -/
theorem center_and_range_latex_failure_iff_witness :
    ∃ e, center_and_range_latex 0 (-1) 1 2 = .error e :=
  (center_and_range_latex_failure_iff 0 (-1) 1 2).mpr (Or.inl rfl)

/-- C8: the two documented examples of `center_and_range_latex`: the
unscaled triple yields `-0.61^{+1.67}_{-0.20}`, and the same triple scaled
by 1000 yields `-610^{+1670}_{-200}` with zero fractional digits because the
shared round digit is non-negative. -/
theorem center_and_range_latex_documented_examples :
    center_and_range_latex (-0.6127108398864638) (-0.8138475623409628)
        1.0584378784847064 2 = .ok "-0.61^\x7b+1.67\x7d_\x7b-0.20\x7d" ∧
    center_and_range_latex (-612.7108398864638) (-813.8475623409628)
        1058.4378784847064 2 = .ok "-610^\x7b+1670\x7d_\x7b-200\x7d" := by
  constructor
  · have hd1 : (1.0584378784847064 : ℚ) - (-0.6127108398864638) =
        1.6711487183711702 := by norm_num
    have hd2 : (-0.6127108398864638 : ℚ) - (-0.8138475623409628) =
        0.2011367224544990 := by norm_num
    have he1 : floorLog10 (-0.6127108398864638 : ℚ) = -1 :=
      floorLog10_of_neg (-1) (by norm_num) (by norm_num) (by norm_num)
    have he2 : floorLog10 (1.6711487183711702 : ℚ) = 0 :=
      floorLog10_of_pos 0 (by norm_num) (by norm_num) (by norm_num)
    have he3 : floorLog10 (0.2011367224544990 : ℚ) = -1 :=
      floorLog10_of_pos (-1) (by norm_num) (by norm_num) (by norm_num)
    have hmin : (([-0.6127108398864638,
        1.0584378784847064 - (-0.6127108398864638),
        (-0.6127108398864638) - (-0.8138475623409628)] : List ℚ).map
          floorLog10).min? = some (-1) := by
      rw [hd1, hd2, List.map_cons, List.map_cons, List.map_cons, List.map_nil,
        he1, he2, he3]
      decide
    rw [center_and_range_latex_eq (by norm_num) (by norm_num) (by norm_num) hmin,
      hd1, hd2, (by norm_num : (2 : ℤ) - 1 - (-1) = ((2 : ℕ) : ℤ)),
      (by norm_num :
        (if (-1 : ℤ) - 2 + 1 < 0 then ((-1 : ℤ) - 2 + 1).natAbs else 0) = 2)]
    rw [formatFixed_pyRound (-0.6127108398864638) 2 (-61)
        (by push_cast; norm_num) (by push_cast; norm_num),
      formatFixed_pyRound 1.6711487183711702 2 167
        (by push_cast; norm_num) (by push_cast; norm_num),
      formatFixed_pyRound 0.2011367224544990 2 20
        (by push_cast; norm_num) (by push_cast; norm_num)]
    rfl
  · have hd1 : (1058.4378784847064 : ℚ) - (-612.7108398864638) =
        1671.1487183711702 := by norm_num
    have hd2 : (-612.7108398864638 : ℚ) - (-813.8475623409628) =
        201.1367224544990 := by norm_num
    have he1 : floorLog10 (-612.7108398864638 : ℚ) = 2 :=
      floorLog10_of_neg 2 (by norm_num) (by norm_num) (by norm_num)
    have he2 : floorLog10 (1671.1487183711702 : ℚ) = 3 :=
      floorLog10_of_pos 3 (by norm_num) (by norm_num) (by norm_num)
    have he3 : floorLog10 (201.1367224544990 : ℚ) = 2 :=
      floorLog10_of_pos 2 (by norm_num) (by norm_num) (by norm_num)
    have hmin : (([-612.7108398864638,
        1058.4378784847064 - (-612.7108398864638),
        (-612.7108398864638) - (-813.8475623409628)] : List ℚ).map
          floorLog10).min? = some 2 := by
      rw [hd1, hd2, List.map_cons, List.map_cons, List.map_cons, List.map_nil,
        he1, he2, he3]
      decide
    rw [center_and_range_latex_eq (by norm_num) (by norm_num) (by norm_num) hmin,
      hd1, hd2, (by norm_num : (2 : ℤ) - 1 - 2 = -1),
      (by norm_num :
        (if (2 : ℤ) - 2 + 1 < 0 then ((2 : ℤ) - 2 + 1).natAbs else 0) = 0)]
    rw [formatFixed_pyRound_int (-612.7108398864638) (-1) (-61) (-610)
        (by norm_num) (by norm_num) (by norm_num),
      formatFixed_pyRound_int 1671.1487183711702 (-1) 167 1670
        (by norm_num) (by norm_num) (by norm_num),
      formatFixed_pyRound_int 201.1367224544990 (-1) 20 200
        (by norm_num) (by norm_num) (by norm_num)]
    rfl

/-- C10: `center_and_range_latex` does not require `lower ≤ center ≤ upper`:
whenever both deltas and the center are non-zero the call returns normally,
and a negative delta is rendered after the fixed `+` or `-` of the template,
as at `(c, l, h) = (1, 0.5, 0.58)` where the output contains `^{+-0.42}`. -/
theorem center_and_range_latex_no_ordering_check :
    (∀ (c l h : ℚ) (s : ℤ), c ≠ 0 → h - c ≠ 0 → c - l ≠ 0 →
      ∃ str, center_and_range_latex c l h s = .ok str) ∧
    center_and_range_latex 1 0.5 0.58 2 =
      .ok ("1.00" ++ "^\x7b+-0.42\x7d" ++ "_\x7b-0.50\x7d") := by
  constructor
  · intro c l h s hc hu hl
    exact (center_and_range_latex_isOk_iff c l h s).mpr ⟨hc, hu, hl⟩
  · have hd1 : (0.58 : ℚ) - 1 = -0.42 := by norm_num
    have hd2 : (1 : ℚ) - 0.5 = 0.5 := by norm_num
    have he1 : floorLog10 (1 : ℚ) = 0 :=
      floorLog10_of_pos 0 (by norm_num) (by norm_num) (by norm_num)
    have he2 : floorLog10 (-0.42 : ℚ) = -1 :=
      floorLog10_of_neg (-1) (by norm_num) (by norm_num) (by norm_num)
    have he3 : floorLog10 (0.5 : ℚ) = -1 :=
      floorLog10_of_pos (-1) (by norm_num) (by norm_num) (by norm_num)
    have hmin : (([1, 0.58 - 1, 1 - 0.5] : List ℚ).map floorLog10).min? =
        some (-1) := by
      rw [hd1, hd2, List.map_cons, List.map_cons, List.map_cons, List.map_nil,
        he1, he2, he3]
      decide
    rw [center_and_range_latex_eq (by norm_num) (by norm_num) (by norm_num) hmin,
      hd1, hd2, (by norm_num : (2 : ℤ) - 1 - (-1) = ((2 : ℕ) : ℤ)),
      (by norm_num :
        (if (-1 : ℤ) - 2 + 1 < 0 then ((-1 : ℤ) - 2 + 1).natAbs else 0) = 2)]
    rw [formatFixed_pyRound 1 2 100
        (by push_cast; norm_num) (by push_cast; norm_num),
      formatFixed_pyRound (-0.42) 2 (-42)
        (by push_cast; norm_num) (by push_cast; norm_num),
      formatFixed_pyRound 0.5 2 50
        (by push_cast; norm_num) (by push_cast; norm_num)]
    rfl

/-- Witness for C10 at the input `(5, 4, 7)`. -/
theorem center_and_range_latex_no_ordering_check_witness :
    ∃ str, center_and_range_latex 5 4 7 2 = .ok str :=
  center_and_range_latex_no_ordering_check.1 5 4 7 2
    (by norm_num) (by norm_num) (by norm_num)

end Rounding
